import Mathlib

/-!
Verification of the `DoubleExcitationGate` four-qubit gate and the
`TrotterStepAlgorithm` base class of OpenFermion-Cirq, shallowly embedded in
Lean 4.

Conventions used throughout:
* a four-qubit computational basis state is an index `i : Fin 16`; the qubits
  `(p, q, r, s)` passed to the gate occupy bit positions `3, 2, 1, 0` of `i`
  (the first qubit is the most significant bit, matching the Kronecker-product
  ordering used by the host toolkit, under which the basis state |0011⟩ is
  index 3 and |1100⟩ is index 12);
* `Z**t` has matrix `diag(1, exp(iπt))` and `X**t` has eigenvalue `1` on
  |+⟩ and `exp(iπt)` on |−⟩, i.e. `X**t = (1+exp(iπt))/2 · I +
  (1−exp(iπt))/2 · X`, the host toolkit's eigen-gate semantics;
* a circuit is a time-ordered list of operations; its unitary is the product
  of the operation matrices in reverse list order.
-/

namespace OFC

open Complex Matrix

/-- The gate datum stored by `DoubleExcitationGate`: its exponent
(`half_turns`).  Polymorphic in the exponent representation `α` so that both
numeric and symbolic exponents are covered. -/
structure DoubleExcitationGateP (α : Type) where
  half_turns : α
deriving DecidableEq

/-- Number of supplied (non-`None`) optional arguments. -/
def numSpecified (l : List (Option ℝ)) : ℕ :=
  l.countP Option.isSome

/-- Modelled from the spec: the host helper `chosen_angle_to_half_turns`
(external to this repository) which "consistently converts whichever single
unit was given, or returns the default of 1 if none given".  A half-turn is π
radians, hence `rads / π`; it is 180 degrees, hence `degs / 180`. -/
noncomputable def chosenAngleToHalfTurns (half_turns rads degs : Option ℝ) : ℝ :=
  match half_turns, rads, degs with
  | some h, _, _ => h
  | none, some x, _ => x / Real.pi
  | none, none, some d => d / 180
  | none, none, none => 1

/-- `DoubleExcitationGate.__init__`: raises on a redundant exponent
specification, otherwise converts the single given unit (a duration is
converted by `exponent = 2 · duration / π`). -/
noncomputable def doubleExcitationGateInit (half_turns rads degs duration : Option ℝ) :
    Except String (DoubleExcitationGateP ℝ) :=
  if 1 < numSpecified [half_turns, rads, degs, duration] then
    Except.error ("Redundant exponent specification. " ++
      "Use ONE of half_turns, rads, degs, or duration.")
  else
    match duration with
    | some d => Except.ok ⟨2 * d / Real.pi⟩
    | none => Except.ok ⟨chosenAngleToHalfTurns half_turns rads degs⟩

/-- `minus_one_component` of `_eigen_components`: 0.5 at (3,3) and (12,12),
−0.5 at (3,12) and (12,3), zero elsewhere. -/
def minusOneComponent : Matrix (Fin 16) (Fin 16) ℚ :=
  Matrix.of fun i j =>
    if (i = 3 ∧ j = 3) ∨ (i = 12 ∧ j = 12) then 1/2
    else if (i = 3 ∧ j = 12) ∨ (i = 12 ∧ j = 3) then -(1/2)
    else 0

/-- `plus_one_component` of `_eigen_components`: 0.5 at (3,3), (12,12),
(3,12) and (12,3), zero elsewhere. -/
def plusOneComponent : Matrix (Fin 16) (Fin 16) ℚ :=
  Matrix.of fun i j =>
    if (i = 3 ∧ j = 3) ∨ (i = 12 ∧ j = 12) ∨ (i = 3 ∧ j = 12) ∨ (i = 12 ∧ j = 3)
    then 1/2 else 0

/-- The eigenvalue-0 component of `_eigen_components`:
`numpy.diag([1,1,1,0,1,1,1,1,1,1,1,1,0,1,1,1])`. -/
def zeroComponent : Matrix (Fin 16) (Fin 16) ℚ :=
  Matrix.of fun i j => if i = j ∧ ¬(j = 3 ∨ j = 12) then 1 else 0

/-- `DoubleExcitationGate._eigen_components`: the fixed ordered list of
(eigenvalue-exponent, component-matrix) pairs. -/
def eigenComponents : List (ℤ × Matrix (Fin 16) (Fin 16) ℚ) :=
  [(0, zeroComponent), (-1, minusOneComponent), (1, plusOneComponent)]

/-- `_eigen_components` as a method of a gate value: it does not read the
gate's exponent, so it is the constant `eigenComponents`. -/
def eigenComponentsOf (_g : DoubleExcitationGateP α) :
    List (ℤ × Matrix (Fin 16) (Fin 16) ℚ) :=
  eigenComponents

/-- `DoubleExcitationGate._canonical_exponent_period`: returns 2. -/
def canonicalExponentPeriod (_g : DoubleExcitationGateP α) : Option ℚ :=
  some 2

/-- `DoubleExcitationGate._with_exponent`: a new gate value with the new
exponent (the original value is untouched; gate values are immutable). -/
def withExponent (_g : DoubleExcitationGateP α) (exponent : α) :
    DoubleExcitationGateP α :=
  ⟨exponent⟩

/-- `DoubleExcitationGate.half_turns` property accessor. -/
def halfTurnsOf (g : DoubleExcitationGateP α) : α :=
  g.half_turns

/-- The unicode wire symbols of `text_diagram_info`; they do not depend on
the gate's exponent. -/
def wireSymbolsOf (_g : DoubleExcitationGateP α) :
    String × String × String × String :=
  ("⇅", "⇅", "⇵", "⇵")

/-- `DoubleExcitationGate.__repr__`: the bare name when the exponent equals
1, otherwise `name**exponent` where the exponent is rendered by the host
language's `repr` (abstracted as the parameter `reprExp`). -/
def gateRepr [DecidableEq α] [One α] (g : DoubleExcitationGateP α)
    (reprExp : α → String) : String :=
  if g.half_turns = 1 then "DoubleExcitation"
  else "DoubleExcitation**" ++ reprExp g.half_turns

/-- The module-level constant `DoubleExcitation = DoubleExcitationGate()`:
the constructor applied with no arguments. -/
noncomputable def DoubleExcitation : Except String (DoubleExcitationGateP ℝ) :=
  doubleExcitationGateInit none none none none

/-- The operator `Σᵢ exp(iπ·λᵢ·θ)·Pᵢ` built from `_eigen_components`: the
unitary the eigen-gate mechanism assigns to the gate at exponent θ. -/
noncomputable def eigenOperator (θ : ℝ) : Matrix (Fin 16) (Fin 16) ℂ :=
  (eigenComponents.map fun c =>
    Complex.exp (Real.pi * Complex.I * c.1 * θ) •
      c.2.map (fun q => (q : ℂ))).sum

/-- `TrotterStepAlgorithm`: the abstract Trotter-step template.  Fields with
default values model the base class's default method bodies; `trotterStep` is
the abstract method every concrete algorithm must implement.  `Q` is the
qubit type, `H` the Hamiltonian type, `O` the operation type. -/
structure TrotterStepAlgorithm (Q H O : Type) where
  controlled : Bool := false
  prepare : List Q → H → Option Q → List O := fun _ _ _ => []
  trotterStep : List Q → H → ℝ → Option Q → List O
  stepQubitPermutation : List Q → Option Q → List Q × Option Q :=
    fun qubits control_qubit => (qubits, control_qubit)
  finish : List Q → H → ℕ → Option Q → Bool → List O := fun _ _ _ _ _ => []

/-- A concrete algorithm that overrides nothing but the abstract
`trotter_step`: every other member is the base class's default. -/
def baseAlgorithm (step : List Q → H → ℝ → Option Q → List O) :
    TrotterStepAlgorithm Q H O :=
  { trotterStep := step }

/-- One application of the driver's between-steps bookkeeping: the step
permutation applied to the (qubit sequence, control qubit) pair. -/
def applyStepPermutation (a : TrotterStepAlgorithm Q H O)
    (st : List Q × Option Q) : List Q × Option Q :=
  a.stepQubitPermutation st.1 st.2

/-- The primitive operations emitted by `default_decompose`: controlled-NOT,
full NOT, NOT raised to a power, and Z raised to a power.  `α` is the qubit
type and `ε` the exponent scalar type (`ℝ` for the unitary semantics, `ℚ`
when syntactic decidability of the emitted list is wanted). -/
inductive Op (α : Type) (ε : Type) where
  | cnot (control target : α)
  | x (target : α)
  | xpow (target : α) (e : ε)
  | zpow (target : α) (e : ε)
deriving DecidableEq

/-- `rq_phase_block` of `default_decompose`:
`[Z(q)**0.125, CNOT(r, q), Z(q)**-0.125]`. -/
def rqPhaseBlock [DivisionRing ε] (q r : α) : List (Op α ε) :=
  [Op.zpow q (1/8), Op.cnot r q, Op.zpow q (-(1/8))]

/-- `srq_parity_transform` of `default_decompose`:
`[CNOT(s, r), CNOT(r, q), CNOT(s, r)]`. -/
def srqParityTransform (s r q : α) : List (Op α ε) :=
  [Op.cnot s r, Op.cnot r q, Op.cnot s r]

/-- `phase_parity_block` of `default_decompose` (flattened). -/
def phaseParityBlock [DivisionRing ε] (q r s : α) : List (Op α ε) :=
  rqPhaseBlock q r ++ srqParityTransform s r q ++ rqPhaseBlock q r

/-- `DoubleExcitationGate.default_decompose(p, q, r, s)` for a gate with
exponent `half_turns`, flattened to the time-ordered list of emitted
operations. -/
def defaultDecompose [DivisionRing ε] (p q r s : α) (half_turns : ε) :
    List (Op α ε) :=
  [Op.cnot r s, Op.cnot q p, Op.cnot q r, Op.xpow q (-half_turns)] ++
    phaseParityBlock q r s ++
    [Op.cnot p q, Op.x q] ++ phaseParityBlock q r s ++
    [Op.xpow q half_turns] ++ phaseParityBlock q r s ++
    [Op.cnot p q, Op.x q] ++ phaseParityBlock q r s ++
    [Op.cnot q p, Op.cnot q r, Op.cnot r s]

/-- `Bool` of bit `t` of the basis-state index `i` (qubit `t` occupied?). -/
def tb (t : Fin 4) (i : Fin 16) : Bool :=
  i.val / 2 ^ t.val % 2 = 1

/-- Flip bit `t` of the basis-state index `i` (the `% 16` is vacuous: the
xor of two indices below 16 is below 16). -/
def fb (t : Fin 4) (i : Fin 16) : Fin 16 :=
  ⟨(i.val ^^^ 2 ^ t.val) % 16, Nat.mod_lt _ (by norm_num)⟩

/-- The basis permutation of `CNOT(c, t)`: flip bit `t` when bit `c` is
set. -/
def cnotPerm (c t : Fin 4) (j : Fin 16) : Fin 16 :=
  if tb c j then fb t j else j

/-- `exp(iπe)`: the eigen-gate phase for eigenvalue-exponent 1 at gate
exponent `e`. -/
noncomputable def expi (e : ℝ) : ℂ :=
  Complex.exp (Real.pi * Complex.I * e)

/-- The unitary matrix of one emitted operation, on the four qubits at bit
positions 3 (p), 2 (q), 1 (r), 0 (s).  `X**e` and `Z**e` follow the host
toolkit's eigen-gate semantics: `Z**e = diag(1, exp(iπe))` on the target
qubit, and `X**e = (1+exp(iπe))/2 · I + (1−exp(iπe))/2 · X`. -/
noncomputable def opMatrix : Op (Fin 4) ℝ → Matrix (Fin 16) (Fin 16) ℂ
  | Op.cnot c t => Matrix.of fun i j => if i = cnotPerm c t j then 1 else 0
  | Op.x t => Matrix.of fun i j => if i = fb t j then 1 else 0
  | Op.xpow t e => Matrix.of fun i j =>
      if i = j then (1 + expi e) / 2
      else if i = fb t j then (1 - expi e) / 2
      else 0
  | Op.zpow t e => Matrix.of fun i j =>
      if i = j then (if tb t j then expi e else 1) else 0

/-- The unitary of a time-ordered operation list: later operations multiply
on the left. -/
noncomputable def opsProd (l : List (Op (Fin 4) ℝ)) :
    Matrix (Fin 16) (Fin 16) ℂ :=
  l.foldl (fun acc o => opMatrix o * acc) 1

/-- The unitary obtained by composing, in order, the operations emitted by
`default_decompose(p, q, r, s)` with `p, q, r, s` at bit positions
3, 2, 1, 0. -/
noncomputable def circuitMatrix (θ : ℝ) : Matrix (Fin 16) (Fin 16) ℂ :=
  opsProd (defaultDecompose (3 : Fin 4) 2 1 0 θ)

/-- A monomial matrix: basis state `j` is sent to `ω ^ ph j` times basis
state `perm j`, where `ω = exp(iπ/8)` (a primitive 16th root of unity, the
phase quantum of the `Z**±0.125` operations). -/
structure Mono where
  perm : Fin 16 → Fin 16
  ph : Fin 16 → ZMod 16
deriving DecidableEq

/-- `ω = exp(iπ/8)`. -/
noncomputable def omg : ℂ :=
  Complex.exp (Real.pi * Complex.I / 8)

/-- `ω ^ k` for an exponent mod 16 (`ω ^ 16 = 1`). -/
noncomputable def omgPow (k : ZMod 16) : ℂ :=
  omg ^ k.val

/-- The complex matrix of a monomial matrix. -/
noncomputable def toMat (m : Mono) : Matrix (Fin 16) (Fin 16) ℂ :=
  Matrix.of fun i j => if i = m.perm j then omgPow (m.ph j) else 0

/-- Composition of monomial matrices (`m` after `n`). -/
def Mono.comp (m n : Mono) : Mono :=
  ⟨fun j => m.perm (n.perm j), fun j => n.ph j + m.ph (n.perm j)⟩

/-- The identity monomial matrix. -/
def monoId : Mono :=
  ⟨id, fun _ => 0⟩

/-- `CNOT(c, t)` as a monomial matrix. -/
def cnotMono (c t : Fin 4) : Mono :=
  ⟨cnotPerm c t, fun _ => 0⟩

/-- `X` on qubit `t` as a monomial matrix. -/
def xMono (t : Fin 4) : Mono :=
  ⟨fb t, fun _ => 0⟩

/-- `Z**(k/8)` on qubit `t` as a monomial matrix (`k = 1` for `Z**0.125`,
`k = 15` for `Z**-0.125`). -/
def zMono (t : Fin 4) (k : ZMod 16) : Mono :=
  ⟨id, fun j => if tb t j then k else 0⟩

/-- Product of a time-ordered list of monomial matrices (later elements
compose on the left), mirroring `opsProd`. -/
def monoProd (l : List Mono) : Mono :=
  l.foldl (fun acc m => Mono.comp m acc) monoId

/-- The bit-reversal permutation `j ↦ 15 − j` (flip all four bits). -/
def revPerm (j : Fin 16) : Fin 16 :=
  ⟨15 - j.val, by omega⟩

/-- Branch of the decomposition taking the `1`-eigenspace of both `X**−θ`
and `X**θ`: the identity. -/
def monoAA : Mono :=
  monoId

/-- Branch taking the `exp(−iπθ)` branch of `X**−θ` and the `1` branch of
`X**θ`: bit reversal with a sign at columns 3 and 12. -/
def monoAB : Mono :=
  ⟨revPerm, fun j => if j = 3 ∨ j = 12 then 8 else 0⟩

/-- Branch taking the `1` branch of `X**−θ` and the `exp(iπθ)` branch of
`X**θ`: plain bit reversal. -/
def monoBA : Mono :=
  ⟨revPerm, fun _ => 0⟩

/-- Branch taking the phase branch of both: a sign at columns 3 and 12. -/
def monoBB : Mono :=
  ⟨id, fun j => if j = 3 ∨ j = 12 then 8 else 0⟩

/-- The operation segment of `default_decompose` before `X(q)**−θ`. -/
def segA : List (Op (Fin 4) ℝ) :=
  [Op.cnot 1 0, Op.cnot 2 3, Op.cnot 2 1]

/-- The operation segment strictly between `X(q)**−θ` and `X(q)**θ`. -/
noncomputable def segB : List (Op (Fin 4) ℝ) :=
  phaseParityBlock 2 1 0 ++ [Op.cnot 3 2, Op.x 2] ++ phaseParityBlock 2 1 0

/-- The operation segment after `X(q)**θ`. -/
noncomputable def segC : List (Op (Fin 4) ℝ) :=
  phaseParityBlock 2 1 0 ++ [Op.cnot 3 2, Op.x 2] ++ phaseParityBlock 2 1 0 ++
    [Op.cnot 2 3, Op.cnot 2 1, Op.cnot 1 0]

/-- `segA` as monomial matrices. -/
def monosA : List Mono :=
  [cnotMono 1 0, cnotMono 2 3, cnotMono 2 1]

/-- `phaseParityBlock 2 1 0` as monomial matrices. -/
def monosPPB : List Mono :=
  [zMono 2 1, cnotMono 1 2, zMono 2 15,
   cnotMono 0 1, cnotMono 1 2, cnotMono 0 1,
   zMono 2 1, cnotMono 1 2, zMono 2 15]

/-- `segB` as monomial matrices. -/
def monosB : List Mono :=
  monosPPB ++ [cnotMono 3 2, xMono 2] ++ monosPPB

/-- `segC` as monomial matrices. -/
def monosC : List Mono :=
  monosPPB ++ [cnotMono 3 2, xMono 2] ++ monosPPB ++
    [cnotMono 2 3, cnotMono 2 1, cnotMono 1 0]

/-- The decomposition shape asserted by the spec for
`default_decompose(p, q, r, s)`, reading its controlled-NOT arrows
target←control (the reading consistent with the spec's other arrow uses):
an opening network of CNOTs with (target, control) pairs (r, s), (p, q),
(r, q); the central parity-plus-phase block applied exactly three times,
allowing arbitrary interleaved material between the blocks (and,
charitably, between the opening network and the first block); and the same
opening network in reverse order at the end. -/
def specClaimedShape {α ε : Type} [DivisionRing ε] (p q r s : α)
    (l : List (Op α ε)) : Prop :=
  ∃ w₀ w₁ w₂ : List (Op α ε),
    l = [Op.cnot s r, Op.cnot q p, Op.cnot q r] ++ w₀ ++
      phaseParityBlock q r s ++ w₁ ++ phaseParityBlock q r s ++ w₂ ++
      phaseParityBlock q r s ++
      [Op.cnot q r, Op.cnot q p, Op.cnot s r]

/-- The antisymmetric unit combination of |0011⟩ and |1100⟩. -/
def vMinus : Fin 16 → ℚ :=
  fun j => if j = 3 then 1 else if j = 12 then -1 else 0

/-- The symmetric unit combination of |0011⟩ and |1100⟩. -/
def vPlus : Fin 16 → ℚ :=
  fun j => if j = 3 ∨ j = 12 then 1 else 0

/-- `zeroComponent` with integer entries (kernel-computable mirror). -/
def zeroInt : Matrix (Fin 16) (Fin 16) ℤ :=
  Matrix.of fun i j => if i = j ∧ ¬(j = 3 ∨ j = 12) then 1 else 0

/-- Twice `minusOneComponent`, with integer entries. -/
def minusTwice : Matrix (Fin 16) (Fin 16) ℤ :=
  Matrix.of fun i j =>
    if (i = 3 ∧ j = 3) ∨ (i = 12 ∧ j = 12) then 1
    else if (i = 3 ∧ j = 12) ∨ (i = 12 ∧ j = 3) then -1
    else 0

/-- Twice `plusOneComponent`, with integer entries. -/
def plusTwice : Matrix (Fin 16) (Fin 16) ℤ :=
  Matrix.of fun i j =>
    if (i = 3 ∧ j = 3) ∨ (i = 12 ∧ j = 12) ∨ (i = 3 ∧ j = 12) ∨ (i = 12 ∧ j = 3)
    then 1 else 0

/-- The diagonal projector onto the two excitation basis states, with
integer entries. -/
def pairDiagInt : Matrix (Fin 16) (Fin 16) ℤ :=
  Matrix.of fun i j => if i = j ∧ (j = 3 ∨ j = 12) then 1 else 0

/-- C3: the `DoubleExcitationGate` constructor errors exactly when more than
one of `half_turns`, `rads`, `degs`, `duration` is supplied, and with no
argument it succeeds with exponent 1.  (In the source the ambiguity check is
the first statement of `__init__`, before any conversion.) -/
theorem constructor_error_iff_ambiguous (a b c d : Option ℝ) :
    ((∃ msg, doubleExcitationGateInit a b c d = Except.error msg) ↔
      1 < numSpecified [a, b, c, d]) ∧
    doubleExcitationGateInit none none none none = Except.ok ⟨1⟩ := by
  constructor
  · by_cases h : 1 < numSpecified [a, b, c, d]
    · simp [doubleExcitationGateInit, h]
    · cases d <;> simp [doubleExcitationGateInit, h]
  · simp [doubleExcitationGateInit, numSpecified, chosenAngleToHalfTurns]

/-- C6: `degs=180`, `rads=π` and `half_turns=1` all store exponent 1; a
duration `d` stores exponent `2·d/π`, so `duration=π/2` stores 1. -/
theorem unit_conversions :
    doubleExcitationGateInit (some 1) none none none = Except.ok ⟨1⟩ ∧
    doubleExcitationGateInit none (some Real.pi) none none = Except.ok ⟨1⟩ ∧
    doubleExcitationGateInit none none (some 180) none = Except.ok ⟨1⟩ ∧
    (∀ d : ℝ, doubleExcitationGateInit none none none (some d) =
      Except.ok ⟨2 * d / Real.pi⟩) ∧
    doubleExcitationGateInit none none none (some (Real.pi / 2)) =
      Except.ok ⟨1⟩ := by
  refine ⟨?_, ?_, ?_, ?_, ?_⟩ <;>
    simp [doubleExcitationGateInit, numSpecified, chosenAngleToHalfTurns,
      div_self Real.pi_ne_zero] <;>
    field_simp

/-- Map a computable integer matrix into ℚ. -/
theorem intMap_mul (A B : Matrix (Fin 16) (Fin 16) ℤ) :
    A.map (fun z => (z : ℚ)) * B.map (fun z => (z : ℚ)) =
      (A * B).map (fun z => (z : ℚ)) :=
  (Matrix.map_mul (f := Int.castRingHom ℚ) (L := A) (M := B)).symm

theorem intMap_trace (A : Matrix (Fin 16) (Fin 16) ℤ) :
    Matrix.trace (A.map (fun z => (z : ℚ))) = ((Matrix.trace A : ℤ) : ℚ) := by
  simp only [Matrix.trace, Matrix.diag, Matrix.map_apply]
  push_cast
  rfl

theorem zeroComponent_int :
    zeroComponent = zeroInt.map (fun z => (z : ℚ)) := by
  ext i j
  simp only [zeroComponent, zeroInt, Matrix.map_apply, Matrix.of_apply]
  split_ifs <;> norm_num

theorem minusOneComponent_int :
    minusOneComponent = (1/2 : ℚ) • minusTwice.map (fun z => (z : ℚ)) := by
  ext i j
  simp only [minusOneComponent, minusTwice, Matrix.map_apply, Matrix.of_apply,
    Matrix.smul_apply, smul_eq_mul]
  split_ifs <;> norm_num

theorem plusOneComponent_int :
    plusOneComponent = (1/2 : ℚ) • plusTwice.map (fun z => (z : ℚ)) := by
  ext i j
  simp only [plusOneComponent, plusTwice, Matrix.map_apply, Matrix.of_apply,
    Matrix.smul_apply, smul_eq_mul]
  split_ifs <;> norm_num

set_option maxHeartbeats 1000000 in
theorem zeroInt_mul_self : zeroInt * zeroInt = zeroInt := by decide

set_option maxHeartbeats 1000000 in
theorem minusTwice_mul_self : minusTwice * minusTwice = minusTwice + minusTwice := by decide

set_option maxHeartbeats 1000000 in
theorem plusTwice_mul_self : plusTwice * plusTwice = plusTwice + plusTwice := by decide

set_option maxHeartbeats 1000000 in
theorem zeroInt_mul_minusTwice : zeroInt * minusTwice = 0 := by decide

set_option maxHeartbeats 1000000 in
theorem minusTwice_mul_zeroInt : minusTwice * zeroInt = 0 := by decide

set_option maxHeartbeats 1000000 in
theorem zeroInt_mul_plusTwice : zeroInt * plusTwice = 0 := by decide

set_option maxHeartbeats 1000000 in
theorem plusTwice_mul_zeroInt : plusTwice * zeroInt = 0 := by decide

set_option maxHeartbeats 1000000 in
theorem minusTwice_mul_plusTwice : minusTwice * plusTwice = 0 := by decide

set_option maxHeartbeats 1000000 in
theorem plusTwice_mul_minusTwice : plusTwice * minusTwice = 0 := by decide

set_option maxHeartbeats 1000000 in
theorem minusTwice_add_plusTwice : minusTwice + plusTwice = pairDiagInt + pairDiagInt := by
  decide

set_option maxHeartbeats 1000000 in
theorem zeroInt_add_pairDiagInt : zeroInt + pairDiagInt = 1 := by decide

set_option maxHeartbeats 1000000 in
theorem trace_zeroInt : Matrix.trace zeroInt = 14 := by decide

set_option maxHeartbeats 1000000 in
theorem trace_minusTwice : Matrix.trace minusTwice = 2 := by decide

set_option maxHeartbeats 1000000 in
theorem trace_plusTwice : Matrix.trace plusTwice = 2 := by decide

theorem c_add_int (a b : ℤ) : ((a + b : ℤ) : ℚ) = (a : ℚ) + (b : ℚ) := by
  push_cast; ring

theorem zeroComponent_diagonal :
    zeroComponent =
      Matrix.diagonal (fun j => if j = 3 ∨ j = 12 then 0 else 1) := by
  ext i j
  rw [Matrix.diagonal_apply]
  simp only [zeroComponent, Matrix.of_apply]
  split_ifs <;> simp_all

theorem minusOneComponent_vecMulVec :
    minusOneComponent = (1/2 : ℚ) • Matrix.vecMulVec vMinus vMinus := by
  ext i j
  simp only [minusOneComponent, Matrix.vecMulVec_apply, vMinus,
    Matrix.smul_apply, smul_eq_mul, Matrix.of_apply]
  split_ifs <;> simp_all <;> norm_num

theorem plusOneComponent_vecMulVec :
    plusOneComponent = (1/2 : ℚ) • Matrix.vecMulVec vPlus vPlus := by
  ext i j
  simp only [plusOneComponent, Matrix.vecMulVec_apply, vPlus,
    Matrix.smul_apply, smul_eq_mul, Matrix.of_apply]
  split_ifs <;> simp_all <;> try tauto

theorem zeroComponent_idem : zeroComponent * zeroComponent = zeroComponent := by
  rw [zeroComponent_int, intMap_mul, zeroInt_mul_self]

theorem minusOneComponent_idem :
    minusOneComponent * minusOneComponent = minusOneComponent := by
  rw [minusOneComponent_int, Matrix.smul_mul, Matrix.mul_smul, smul_smul,
    intMap_mul, minusTwice_mul_self, Matrix.map_add _ c_add_int, smul_add,
    ← add_smul]
  norm_num

theorem plusOneComponent_idem :
    plusOneComponent * plusOneComponent = plusOneComponent := by
  rw [plusOneComponent_int, Matrix.smul_mul, Matrix.mul_smul, smul_smul,
    intMap_mul, plusTwice_mul_self, Matrix.map_add _ c_add_int, smul_add,
    ← add_smul]
  norm_num

theorem zero_mul_minus : zeroComponent * minusOneComponent = 0 := by
  rw [zeroComponent_int, minusOneComponent_int, Matrix.mul_smul,
    intMap_mul, zeroInt_mul_minusTwice, Matrix.map_zero _ Int.cast_zero,
    smul_zero]

theorem minus_mul_zero : minusOneComponent * zeroComponent = 0 := by
  rw [zeroComponent_int, minusOneComponent_int, Matrix.smul_mul,
    intMap_mul, minusTwice_mul_zeroInt, Matrix.map_zero _ Int.cast_zero,
    smul_zero]

theorem zero_mul_plus : zeroComponent * plusOneComponent = 0 := by
  rw [zeroComponent_int, plusOneComponent_int, Matrix.mul_smul,
    intMap_mul, zeroInt_mul_plusTwice, Matrix.map_zero _ Int.cast_zero,
    smul_zero]

theorem plus_mul_zero : plusOneComponent * zeroComponent = 0 := by
  rw [zeroComponent_int, plusOneComponent_int, Matrix.smul_mul,
    intMap_mul, plusTwice_mul_zeroInt, Matrix.map_zero _ Int.cast_zero,
    smul_zero]

theorem minus_mul_plus : minusOneComponent * plusOneComponent = 0 := by
  rw [minusOneComponent_int, plusOneComponent_int, Matrix.smul_mul,
    Matrix.mul_smul, intMap_mul, minusTwice_mul_plusTwice,
    Matrix.map_zero _ Int.cast_zero, smul_zero, smul_zero]

theorem plus_mul_minus : plusOneComponent * minusOneComponent = 0 := by
  rw [minusOneComponent_int, plusOneComponent_int, Matrix.smul_mul,
    Matrix.mul_smul, intMap_mul, plusTwice_mul_minusTwice,
    Matrix.map_zero _ Int.cast_zero, smul_zero, smul_zero]

theorem zeroComponent_symm : zeroComponent.transpose = zeroComponent := by
  ext i j
  simp only [Matrix.transpose_apply, zeroComponent, Matrix.of_apply]
  split_ifs <;> simp_all

theorem minusOneComponent_symm :
    minusOneComponent.transpose = minusOneComponent := by
  ext i j
  simp only [Matrix.transpose_apply, minusOneComponent, Matrix.of_apply]
  split_ifs <;> tauto

theorem plusOneComponent_symm :
    plusOneComponent.transpose = plusOneComponent := by
  ext i j
  simp only [Matrix.transpose_apply, plusOneComponent, Matrix.of_apply]
  split_ifs <;> tauto

theorem components_sum_one :
    zeroComponent + minusOneComponent + plusOneComponent = 1 := by
  have half_pair : (1/2 : ℚ) •
      (pairDiagInt.map (fun z => (z : ℚ)) + pairDiagInt.map (fun z => (z : ℚ)))
      = pairDiagInt.map (fun z => (z : ℚ)) := by
    rw [smul_add, ← add_smul]; norm_num
  rw [zeroComponent_int, minusOneComponent_int, plusOneComponent_int,
    add_assoc, ← smul_add, ← Matrix.map_add _ c_add_int,
    minusTwice_add_plusTwice, Matrix.map_add _ c_add_int, half_pair,
    ← Matrix.map_add _ c_add_int, zeroInt_add_pairDiagInt,
    Matrix.map_one _ Int.cast_zero Int.cast_one]

theorem trace_zeroComponent : Matrix.trace zeroComponent = 14 := by
  rw [zeroComponent_int, intMap_trace]
  norm_num [trace_zeroInt]

theorem trace_minusOneComponent : Matrix.trace minusOneComponent = 1 := by
  rw [minusOneComponent_int, Matrix.trace_smul, intMap_trace]
  norm_num [trace_minusTwice]

theorem trace_plusOneComponent : Matrix.trace plusOneComponent = 1 := by
  rw [plusOneComponent_int, Matrix.trace_smul, intMap_trace]
  norm_num [trace_plusTwice]

/-- C4: `_eigen_components` is the fixed triple (0, diagonal projector off
the excitation pair), (−1, antisymmetric rank-1 projector), (+1, symmetric
rank-1 projector); the three matrices are idempotent, mutually orthogonal,
symmetric, have traces 14, 1, 1, and sum to the identity. -/
theorem eigen_components_spec :
    eigenComponents =
      [(0, zeroComponent), (-1, minusOneComponent), (1, plusOneComponent)] ∧
    zeroComponent =
      Matrix.diagonal (fun j => if j = 3 ∨ j = 12 then 0 else 1) ∧
    minusOneComponent = (1/2 : ℚ) • Matrix.vecMulVec vMinus vMinus ∧
    plusOneComponent = (1/2 : ℚ) • Matrix.vecMulVec vPlus vPlus ∧
    zeroComponent * zeroComponent = zeroComponent ∧
    minusOneComponent * minusOneComponent = minusOneComponent ∧
    plusOneComponent * plusOneComponent = plusOneComponent ∧
    zeroComponent * minusOneComponent = 0 ∧
    minusOneComponent * zeroComponent = 0 ∧
    zeroComponent * plusOneComponent = 0 ∧
    plusOneComponent * zeroComponent = 0 ∧
    minusOneComponent * plusOneComponent = 0 ∧
    plusOneComponent * minusOneComponent = 0 ∧
    zeroComponent.transpose = zeroComponent ∧
    minusOneComponent.transpose = minusOneComponent ∧
    plusOneComponent.transpose = plusOneComponent ∧
    zeroComponent + minusOneComponent + plusOneComponent = 1 ∧
    Matrix.trace zeroComponent = 14 ∧
    Matrix.trace minusOneComponent = 1 ∧
    Matrix.trace plusOneComponent = 1 :=
  ⟨rfl, zeroComponent_diagonal, minusOneComponent_vecMulVec,
    plusOneComponent_vecMulVec, zeroComponent_idem, minusOneComponent_idem,
    plusOneComponent_idem, zero_mul_minus, minus_mul_zero, zero_mul_plus,
    plus_mul_zero, minus_mul_plus, plus_mul_minus, zeroComponent_symm,
    minusOneComponent_symm, plusOneComponent_symm, components_sum_one,
    trace_zeroComponent, trace_minusOneComponent, trace_plusOneComponent⟩

theorem exp_pi_I_int_two (l : ℤ) (θ : ℝ) :
    Complex.exp (Real.pi * Complex.I * l * (((θ + 2 : ℝ)) : ℂ)) =
      Complex.exp (Real.pi * Complex.I * l * ((θ : ℝ) : ℂ)) := by
  rw [show (Real.pi * Complex.I * l * (((θ + 2 : ℝ)) : ℂ) : ℂ) =
      Real.pi * Complex.I * l * ((θ : ℝ) : ℂ) +
        l * (2 * Real.pi * Complex.I) by push_cast; ring]
  rw [Complex.exp_add, Complex.exp_int_mul_two_pi_mul_I, mul_one]

/-- C5: `_canonical_exponent_period` returns 2, and the eigen-operator
`Σᵢ exp(iπ·λᵢ·θ)·Pᵢ` at exponent θ+2 is exactly (not merely up to phase)
the operator at exponent θ. -/
theorem canonical_period_spec (g : DoubleExcitationGateP ℝ) (θ : ℝ) :
    canonicalExponentPeriod g = some 2 ∧
    eigenOperator (θ + 2) = eigenOperator θ := by
  refine ⟨rfl, ?_⟩
  simp only [eigenOperator, eigenComponents, List.map_cons, List.map_nil,
    List.sum_cons, List.sum_nil]
  rw [exp_pi_I_int_two 0, exp_pi_I_int_two (-1), exp_pi_I_int_two 1]

theorem Mono.ext (m n : Mono) (h1 : m.perm = n.perm) (h2 : m.ph = n.ph) :
    m = n := by
  cases m; cases n; cases h1; cases h2; rfl

theorem comp_monoId (m : Mono) : Mono.comp m monoId = m := by
  refine Mono.ext _ _ rfl ?_
  funext j
  simp [Mono.comp, monoId]

theorem monoId_comp (m : Mono) : Mono.comp monoId m = m := by
  refine Mono.ext _ _ rfl ?_
  funext j
  simp [Mono.comp, monoId]

theorem mono_comp_assoc (a b c : Mono) :
    Mono.comp (Mono.comp a b) c = Mono.comp a (Mono.comp b c) := by
  refine Mono.ext _ _ rfl ?_
  funext j
  simp [Mono.comp, add_assoc]

theorem fb_ne (t : Fin 4) (j : Fin 16) : fb t j ≠ j := by
  revert t j; decide

theorem revPerm_ne (j : Fin 16) : revPerm j ≠ j := by
  revert j; decide

theorem omg_pow_16 : omg ^ 16 = 1 := by
  rw [omg, ← Complex.exp_nat_mul,
    show ((16 : ℕ) : ℂ) * (Real.pi * Complex.I / 8) =
      2 * Real.pi * Complex.I by push_cast; ring]
  exact Complex.exp_two_pi_mul_I

theorem omg_pow_mod (k : ℕ) : omg ^ (k % 16) = omg ^ k := by
  conv_rhs => rw [← Nat.mod_add_div k 16]
  rw [pow_add, pow_mul, omg_pow_16, one_pow, mul_one]

theorem omgPow_add (a b : ZMod 16) : omgPow (a + b) = omgPow a * omgPow b := by
  rw [omgPow, omgPow, omgPow, ← pow_add, ZMod.val_add, omg_pow_mod]

theorem omgPow_zero : omgPow 0 = 1 := by
  rw [omgPow, ZMod.val_zero, pow_zero]

theorem omgPow_eight : omgPow 8 = -1 := by
  rw [omgPow, show ((8 : ZMod 16)).val = 8 from rfl, omg,
    ← Complex.exp_nat_mul,
    show ((8 : ℕ) : ℂ) * (Real.pi * Complex.I / 8) =
      Real.pi * Complex.I by push_cast; ring]
  exact Complex.exp_pi_mul_I

theorem omgPow_ne_zero (k : ZMod 16) : omgPow k ≠ 0 := by
  rw [omgPow]
  exact pow_ne_zero _ (Complex.exp_ne_zero _)

theorem toMat_comp (m n : Mono) :
    toMat (Mono.comp m n) = toMat m * toMat n := by
  ext i j
  rw [Matrix.mul_apply]
  simp only [toMat, Mono.comp, Matrix.of_apply]
  rw [Finset.sum_eq_single (n.perm j)]
  · rw [if_pos rfl]
    by_cases h : i = m.perm (n.perm j)
    · rw [if_pos h, if_pos h, omgPow_add, mul_comm]
    · rw [if_neg h, if_neg h, zero_mul]
  · intro b _ hb
    rw [if_neg hb, mul_zero]
  · intro h
    exact absurd (Finset.mem_univ _) h

theorem toMat_monoId : toMat monoId = 1 := by
  ext i j
  simp [toMat, monoId, Matrix.one_apply, omgPow_zero]

theorem opsProd_go (l : List (Op (Fin 4) ℝ)) (acc : Matrix (Fin 16) (Fin 16) ℂ) :
    l.foldl (fun A o => opMatrix o * A) acc = opsProd l * acc := by
  induction l generalizing acc with
  | nil => simp [opsProd]
  | cons o t ih =>
    simp only [List.foldl_cons, opsProd] at ih ⊢
    rw [ih, ih (opMatrix o * 1), Matrix.mul_assoc, mul_one]

theorem opsProd_cons (o : Op (Fin 4) ℝ) (l : List (Op (Fin 4) ℝ)) :
    opsProd (o :: l) = opsProd l * opMatrix o := by
  rw [opsProd, List.foldl_cons, opsProd_go, mul_one]

theorem opsProd_append (l₁ l₂ : List (Op (Fin 4) ℝ)) :
    opsProd (l₁ ++ l₂) = opsProd l₂ * opsProd l₁ := by
  rw [opsProd, List.foldl_append, ← opsProd, opsProd_go]

theorem opsProd_singleton (o : Op (Fin 4) ℝ) : opsProd [o] = opMatrix o := by
  rw [opsProd, List.foldl_cons, List.foldl_nil, mul_one]

theorem monoProd_go (l : List Mono) (acc : Mono) :
    l.foldl (fun a m => Mono.comp m a) acc = Mono.comp (monoProd l) acc := by
  induction l generalizing acc with
  | nil => simp [monoProd, monoId_comp]
  | cons m t ih =>
    simp only [List.foldl_cons, monoProd] at ih ⊢
    rw [ih, ih (Mono.comp m monoId), mono_comp_assoc, comp_monoId]

theorem monoProd_cons (m : Mono) (l : List Mono) :
    monoProd (m :: l) = Mono.comp (monoProd l) m := by
  rw [monoProd, List.foldl_cons, monoProd_go, comp_monoId]

theorem opsProd_eq_toMat (os : List (Op (Fin 4) ℝ)) (ms : List Mono)
    (h : os.map opMatrix = ms.map toMat) :
    opsProd os = toMat (monoProd ms) := by
  induction os generalizing ms with
  | nil =>
    cases ms with
    | nil => simp [opsProd, monoProd, toMat_monoId]
    | cons m t => simp at h
  | cons o t ih =>
    cases ms with
    | nil => simp at h
    | cons m u =>
      simp only [List.map_cons, List.cons.injEq] at h
      rw [opsProd_cons, monoProd_cons, toMat_comp, ih u h.2, h.1]

theorem opMatrix_cnot (c t : Fin 4) :
    opMatrix (Op.cnot c t) = toMat (cnotMono c t) := by
  ext i j
  simp [opMatrix, toMat, cnotMono, omgPow_zero]

theorem opMatrix_x (t : Fin 4) : opMatrix (Op.x t) = toMat (xMono t) := by
  ext i j
  simp [opMatrix, toMat, xMono, omgPow_zero]

theorem expi_eighth : expi (1/8) = omgPow 1 := by
  rw [expi, omgPow, show ((1 : ZMod 16)).val = 1 from rfl, pow_one, omg]
  congr 1
  push_cast
  ring

theorem expi_neg_eighth : expi (-(1/8)) = omgPow 15 := by
  have h1 : expi (-(1/8)) * expi (1/8) = 1 := by
    rw [expi, expi, ← Complex.exp_add,
      show (Real.pi * Complex.I * ((-(1/8) : ℝ) : ℂ) +
        Real.pi * Complex.I * (((1:ℝ)/8 : ℝ) : ℂ) : ℂ) = 0 by push_cast; ring]
    exact Complex.exp_zero
  have h2 : omgPow 15 * expi (1/8) = 1 := by
    rw [expi_eighth, ← omgPow_add,
      show (15 + 1 : ZMod 16) = 0 from by decide, omgPow_zero]
  have h3 := h1.trans h2.symm
  exact mul_right_cancel₀ (by rw [expi_eighth]; exact omgPow_ne_zero 1) h3

theorem opMatrix_zpow_eighth (t : Fin 4) :
    opMatrix (Op.zpow t (1/8)) = toMat (zMono t 1) := by
  ext i j
  simp only [opMatrix, toMat, zMono, Matrix.of_apply, id]
  by_cases h : i = j
  · rw [if_pos h, if_pos h, apply_ite omgPow, expi_eighth, omgPow_zero]
  · rw [if_neg h, if_neg h]

theorem opMatrix_zpow_neg_eighth (t : Fin 4) :
    opMatrix (Op.zpow t (-(1/8))) = toMat (zMono t 15) := by
  ext i j
  simp only [opMatrix, toMat, zMono, Matrix.of_apply, id]
  by_cases h : i = j
  · rw [if_pos h, if_pos h, apply_ite omgPow, expi_neg_eighth, omgPow_zero]
  · rw [if_neg h, if_neg h]

theorem opMatrix_xpow (t : Fin 4) (e : ℝ) :
    opMatrix (Op.xpow t e) =
      ((1 + expi e) / 2) • (1 : Matrix (Fin 16) (Fin 16) ℂ) +
        ((1 - expi e) / 2) • toMat (xMono t) := by
  ext i j
  simp only [opMatrix, Matrix.add_apply, Matrix.smul_apply, Matrix.one_apply,
    toMat, xMono, Matrix.of_apply, smul_eq_mul]
  by_cases h1 : i = j
  · rw [if_pos h1, if_pos h1, if_neg (by rw [h1]; exact (fb_ne t j).symm)]
    ring
  · rw [if_neg h1, if_neg h1]
    by_cases h2 : i = fb t j
    · rw [if_pos h2, if_pos h2, omgPow_zero]
      ring
    · rw [if_neg h2, if_neg h2]
      simp

theorem opsProd_segA : opsProd segA = toMat (monoProd monosA) := by
  apply opsProd_eq_toMat
  simp only [segA, monosA, List.map_cons, List.map_nil, opMatrix_cnot]

theorem opsProd_segB : opsProd segB = toMat (monoProd monosB) := by
  apply opsProd_eq_toMat
  simp only [segB, monosB, monosPPB, phaseParityBlock, rqPhaseBlock,
    srqParityTransform, List.append_assoc, List.cons_append, List.nil_append,
    List.map_append, List.map_cons, List.map_nil, opMatrix_cnot, opMatrix_x,
    opMatrix_zpow_eighth, opMatrix_zpow_neg_eighth]

theorem opsProd_segC : opsProd segC = toMat (monoProd monosC) := by
  apply opsProd_eq_toMat
  simp only [segC, monosC, monosPPB, phaseParityBlock, rqPhaseBlock,
    srqParityTransform, List.append_assoc, List.cons_append, List.nil_append,
    List.map_append, List.map_cons, List.map_nil, opMatrix_cnot, opMatrix_x,
    opMatrix_zpow_eighth, opMatrix_zpow_neg_eighth]

set_option maxHeartbeats 1000000 in
set_option maxRecDepth 4000 in
theorem branch_aa :
    Mono.comp (monoProd monosC) (Mono.comp (monoProd monosB)
      (monoProd monosA)) = monoAA :=
  Mono.ext _ _ (by decide) (by decide)

set_option maxHeartbeats 1000000 in
set_option maxRecDepth 4000 in
theorem branch_ba :
    Mono.comp (monoProd monosC) (Mono.comp (monoProd monosB)
      (Mono.comp (xMono 2) (monoProd monosA))) = monoBA :=
  Mono.ext _ _ (by decide) (by decide)

set_option maxHeartbeats 1000000 in
set_option maxRecDepth 4000 in
theorem branch_ab :
    Mono.comp (monoProd monosC) (Mono.comp (xMono 2)
      (Mono.comp (monoProd monosB) (monoProd monosA))) = monoAB :=
  Mono.ext _ _ (by decide) (by decide)

set_option maxHeartbeats 1000000 in
set_option maxRecDepth 4000 in
theorem branch_bb :
    Mono.comp (monoProd monosC) (Mono.comp (xMono 2)
      (Mono.comp (monoProd monosB) (Mono.comp (xMono 2)
        (monoProd monosA)))) = monoBB :=
  Mono.ext _ _ (by decide) (by decide)

theorem sandwich (a b : ℂ) (x m : Mono) :
    (a • (1 : Matrix (Fin 16) (Fin 16) ℂ) + b • toMat x) * toMat m =
      a • toMat m + b • toMat (Mono.comp x m) := by
  rw [Matrix.add_mul, Matrix.smul_mul, Matrix.smul_mul, one_mul, toMat_comp]

theorem mulsum (m : Mono) (a b : ℂ) (u v : Mono) :
    toMat m * (a • toMat u + b • toMat v) =
      a • toMat (Mono.comp m u) + b • toMat (Mono.comp m v) := by
  rw [Matrix.mul_add, Matrix.mul_smul, Matrix.mul_smul, toMat_comp,
    toMat_comp]

theorem sandwichSum (a b c d : ℂ) (x u v : Mono) :
    (a • (1 : Matrix (Fin 16) (Fin 16) ℂ) + b • toMat x) *
        (c • toMat u + d • toMat v) =
      (a * c) • toMat u + (a * d) • toMat v +
        ((b * c) • toMat (Mono.comp x u) + (b * d) • toMat (Mono.comp x v)) := by
  rw [Matrix.add_mul, Matrix.smul_mul, Matrix.smul_mul, one_mul, mulsum,
    smul_add, smul_smul, smul_smul, smul_add, smul_smul, smul_smul]

/-- The decomposition's unitary as the sum of its four monomial branches:
the products of the identity/NOT branches of `X**−θ` and `X**θ` with the
fixed monomial segments of the circuit. -/
theorem circuitMatrix_eq_branches (θ : ℝ) :
    circuitMatrix θ =
      (((1 + expi θ) / 2) * ((1 + expi (-θ)) / 2)) • toMat monoAA +
      (((1 + expi θ) / 2) * ((1 - expi (-θ)) / 2)) • toMat monoBA +
      ((((1 - expi θ) / 2) * ((1 + expi (-θ)) / 2)) • toMat monoAB +
       (((1 - expi θ) / 2) * ((1 - expi (-θ)) / 2)) • toMat monoBB) := by
  rw [circuitMatrix,
    show defaultDecompose (3 : Fin 4) 2 1 0 θ =
      (((segA ++ [Op.xpow 2 (-θ)]) ++ segB) ++ [Op.xpow 2 θ]) ++ segC
      from rfl,
    opsProd_append, opsProd_append, opsProd_append, opsProd_append,
    opsProd_singleton, opsProd_singleton, opsProd_segA, opsProd_segB,
    opsProd_segC, opMatrix_xpow, opMatrix_xpow, sandwich, mulsum,
    sandwichSum, Matrix.mul_add, mulsum, mulsum, branch_aa, branch_ba,
    branch_ab, branch_bb]

theorem exp_coeff_zero (θ : ℝ) :
    Complex.exp (Real.pi * Complex.I * ((0 : ℤ) : ℂ) * ((θ : ℝ) : ℂ)) = 1 := by
  norm_num

theorem exp_coeff_neg (θ : ℝ) :
    Complex.exp (Real.pi * Complex.I * ((-1 : ℤ) : ℂ) * ((θ : ℝ) : ℂ)) =
      expi (-θ) := by
  rw [expi]
  congr 1
  push_cast
  ring

theorem exp_coeff_pos (θ : ℝ) :
    Complex.exp (Real.pi * Complex.I * ((1 : ℤ) : ℂ) * ((θ : ℝ) : ℂ)) =
      expi θ := by
  rw [expi]
  congr 1
  push_cast
  ring

theorem fin3_ne_12 : ¬((3 : Fin 16) = 12) := by decide

theorem fin12_ne_3 : ¬((12 : Fin 16) = 3) := by decide

theorem expi_mul_expi_neg (θ : ℝ) : expi θ * expi (-θ) = 1 := by
  rw [expi, expi, ← Complex.exp_add,
    show (Real.pi * Complex.I * ((θ : ℝ) : ℂ) +
      Real.pi * Complex.I * (((-θ : ℝ)) : ℂ) : ℂ) = 0 by push_cast; ring]
  exact Complex.exp_zero

/-- The entries of the eigen-operator `Σᵢ exp(iπ·λᵢ·θ)·Pᵢ`. -/
theorem eigenOperator_apply (θ : ℝ) (i j : Fin 16) :
    eigenOperator θ i j =
      (if i = j ∧ ¬(j = 3 ∨ j = 12) then 1 else 0) +
      (expi (-θ) * (if (i = 3 ∧ j = 3) ∨ (i = 12 ∧ j = 12) then 1/2
        else if (i = 3 ∧ j = 12) ∨ (i = 12 ∧ j = 3) then -(1/2) else 0) +
      expi θ * (if (i = 3 ∧ j = 3) ∨ (i = 12 ∧ j = 12) ∨ (i = 3 ∧ j = 12) ∨
          (i = 12 ∧ j = 3) then 1/2 else 0)) := by
  simp only [eigenOperator, eigenComponents, List.map_cons, List.map_nil,
    List.sum_cons, List.sum_nil, add_zero, Matrix.add_apply,
    Matrix.smul_apply, smul_eq_mul, Matrix.map_apply, zeroComponent,
    minusOneComponent, plusOneComponent, Matrix.of_apply]
  rw [exp_coeff_zero, exp_coeff_neg, exp_coeff_pos, one_mul]
  rw [apply_ite (fun q : ℚ => (q : ℂ)), apply_ite (fun q : ℚ => (q : ℂ)),
    apply_ite (fun q : ℚ => (q : ℂ)), apply_ite (fun q : ℚ => (q : ℂ))]
  push_cast
  rfl

/-- C1: for every real exponent θ (a symbolic exponent denotes an arbitrary
real), the unitary obtained by composing, in order, the operations emitted
by `default_decompose(p, q, r, s)` equals, up to a global complex phase of
modulus 1 (here in fact exactly, with phase 1), the operator
`Σᵢ exp(iπ·λᵢ·θ)·Pᵢ` built from `_eigen_components`. -/
theorem default_decompose_eq_eigenOperator (θ : ℝ) :
    ∃ c : ℂ, Complex.abs c = 1 ∧ circuitMatrix θ = c • eigenOperator θ := by
  refine ⟨1, by simp, ?_⟩
  have huv := expi_mul_expi_neg θ
  rw [one_smul, circuitMatrix_eq_branches]
  ext i j
  rw [Matrix.add_apply, Matrix.add_apply, Matrix.add_apply,
    eigenOperator_apply]
  simp only [Matrix.smul_apply, smul_eq_mul, toMat, monoAA, monoAB, monoBA,
    monoBB, monoId, Matrix.of_apply, id_eq, apply_ite omgPow, omgPow_eight,
    omgPow_zero]
  by_cases h3 : j = 3
  · subst h3
    rw [show revPerm (3 : Fin 16) = 12 from rfl]
    by_cases hi3 : i = 3
    · subst hi3
      norm_num [fin3_ne_12]
      ring
    · by_cases hi12 : i = 12
      · subst hi12
        norm_num [fin3_ne_12, fin12_ne_3]
        ring
      · norm_num [hi3, hi12]
  · by_cases h12 : j = 12
    · subst h12
      rw [show revPerm (12 : Fin 16) = 3 from rfl]
      by_cases hi12 : i = 12
      · subst hi12
        norm_num [fin12_ne_3]
        ring
      · by_cases hi3 : i = 3
        · subst hi3
          norm_num [fin3_ne_12, fin12_ne_3]
          ring
        · norm_num [hi3, hi12]
    · by_cases hij : i = j
      · subst hij
        norm_num [(revPerm_ne i).symm, h3, h12]
        linear_combination huv / 2
      · by_cases hrev : i = revPerm j
        · subst hrev
          norm_num [revPerm_ne j, h3, h12]
          linear_combination (-(1 : ℂ) / 2) * huv
        · norm_num [hij, hrev, h3, h12]

/-- C2 (counterexample): at the concrete distinct qubits
(p, q, r, s) = (0, 1, 2, 3) and exponent 1, the emitted operation list does
not have the shape the spec asserts, even allowing arbitrary material
between the three claimed parity-plus-phase blocks: the first emitted
operation is CNOT(r, s) (control r, target s, i.e. s←r), not the claimed
s-controlled CNOT(s, r); independently, the code applies the block four
times, not three, and the closing network is not the literal reverse of the
opening one (see the amended theorem). -/
theorem default_decompose_not_spec_shape :
    ¬ specClaimedShape (0 : Fin 4) 1 2 3
      (defaultDecompose (0 : Fin 4) 1 2 3 (1 : ℚ)) := by
  rintro ⟨w₀, w₁, w₂, heq⟩
  have h0 := congrArg List.head? heq
  rw [show (defaultDecompose (0 : Fin 4) 1 2 3 (1 : ℚ)).head? =
    some (Op.cnot 2 3) from rfl] at h0
  simp only [List.cons_append, List.append_assoc, List.head?_cons] at h0
  exact absurd h0 (by decide)

/-- C2 (amended): the precise emitted structure.  It opens with CNOT(r,s),
CNOT(q,p), CNOT(q,r) (targets s, p, r: the network s←r, p←q, r←q); the
parity-plus-phase block — a phase block (Z(q)**⅛, CNOT(r,q), Z(q)**−⅛), the
parity chain (CNOT(s,r), CNOT(r,q), CNOT(s,r)), and the phase block again —
is applied FOUR times, preceded by X(q)**−θ and interleaved with
CNOT(p,q)·X(q), then X(q)**θ, then CNOT(p,q)·X(q); and it closes with
CNOT(q,p), CNOT(q,r), CNOT(r,s): the opening network reversed only up to
exchanging the two commuting q-controlled gates. -/
theorem default_decompose_structure {α ε : Type} [DivisionRing ε]
    (p q r s : α) (θ : ε) :
    defaultDecompose p q r s θ =
      [Op.cnot r s, Op.cnot q p, Op.cnot q r] ++
      [Op.xpow q (-θ)] ++ phaseParityBlock q r s ++
      [Op.cnot p q, Op.x q] ++ phaseParityBlock q r s ++
      [Op.xpow q θ] ++ phaseParityBlock q r s ++
      [Op.cnot p q, Op.x q] ++ phaseParityBlock q r s ++
      [Op.cnot q p, Op.cnot q r, Op.cnot r s] ∧
    phaseParityBlock q r s =
      [Op.zpow q ((1 : ε)/8), Op.cnot r q, Op.zpow q (-((1 : ε)/8)),
       Op.cnot s r, Op.cnot r q, Op.cnot s r,
       Op.zpow q ((1 : ε)/8), Op.cnot r q, Op.zpow q (-((1 : ε)/8))] ∧
    (defaultDecompose p q r s θ).take 3 =
      [Op.cnot r s, Op.cnot q p, Op.cnot q r] ∧
    (defaultDecompose p q r s θ).drop 45 =
      [Op.cnot q p, Op.cnot q r, Op.cnot r s] :=
  ⟨rfl, rfl, rfl, rfl⟩

/-- C7: `_with_exponent x` yields a gate whose `half_turns` is `x` while the
eigen-components, canonical period and display symbols are unchanged; the
original gate value is untouched (it still is the value built from its own
stored exponent). -/
theorem with_exponent_spec {α : Type} (g : DoubleExcitationGateP α) (x : α) :
    (withExponent g x).half_turns = x ∧
    eigenComponentsOf (withExponent g x) = eigenComponentsOf g ∧
    canonicalExponentPeriod (withExponent g x) = canonicalExponentPeriod g ∧
    wireSymbolsOf (withExponent g x) = wireSymbolsOf g ∧
    g = ⟨g.half_turns⟩ :=
  ⟨rfl, rfl, rfl, rfl, rfl⟩

/-- C9: the textual form is the bare name exactly when the exponent is 1,
and `DoubleExcitation**e` otherwise; in particular `_with_exponent(2)` of a
default-constructed (exponent 1) gate renders as `DoubleExcitation**2`. -/
theorem repr_spec {α : Type} [DecidableEq α] [One α]
    (g : DoubleExcitationGateP α) (reprExp : α → String) :
    (gateRepr g reprExp = "DoubleExcitation" ↔ g.half_turns = 1) ∧
    (g.half_turns ≠ 1 →
      gateRepr g reprExp = "DoubleExcitation**" ++ reprExp g.half_turns) ∧
    gateRepr (withExponent (⟨1⟩ : DoubleExcitationGateP ℤ) 2) toString =
      "DoubleExcitation**2" := by
  refine ⟨⟨fun h => ?_, fun h => by simp [gateRepr, h]⟩, fun h => ?_, rfl⟩
  · by_contra hne
    rw [gateRepr, if_neg hne] at h
    have := congrArg String.length h
    simp only [String.length_append] at this
    have h18 : "DoubleExcitation**".length = 18 := rfl
    have h16 : "DoubleExcitation".length = 16 := rfl
    omega
  · rw [gateRepr, if_neg h]

/-- C8: the base class's default `prepare` and `finish` emit no operations
and its default `step_qubit_permutation` is the identity, so a driver
applying it any number of times between steps sees the unchanged qubit
sequence and control qubit. -/
theorem trotter_default_phases (Q H O : Type)
    (step : List Q → H → ℝ → Option Q → List O)
    (qubits : List Q) (ham : H) (control : Option Q)
    (nsteps n : ℕ) (omitFinalSwaps : Bool) :
    (baseAlgorithm step).prepare qubits ham control = [] ∧
    (baseAlgorithm step).finish qubits ham nsteps control omitFinalSwaps
      = [] ∧
    (baseAlgorithm step).stepQubitPermutation qubits control
      = (qubits, control) ∧
    (applyStepPermutation (baseAlgorithm step))^[n] (qubits, control)
      = (qubits, control) :=
  ⟨rfl, rfl, rfl, Function.iterate_fixed rfl n⟩

/-- C10: `DoubleExcitation` is the no-argument construction, so its exponent
is 1 and its textual form (for any exponent renderer) is the bare name; the
base class fixes `controlled` to `False`, inherited by any algorithm that
does not override it. -/
theorem module_constants (Q H O : Type)
    (step : List Q → H → ℝ → Option Q → List O) (f : ℝ → String) :
    DoubleExcitation = Except.ok ⟨1⟩ ∧
    gateRepr (⟨(1 : ℝ)⟩ : DoubleExcitationGateP ℝ) f = "DoubleExcitation" ∧
    (baseAlgorithm step).controlled = false := by
  refine ⟨?_, ?_, rfl⟩
  · simp [DoubleExcitation, doubleExcitationGateInit, numSpecified,
      chosenAngleToHalfTurns]
  · rw [gateRepr, if_pos rfl]

end OFC
